import Mathlib

/-!
Verification of the discourse-hooks-db multi-version hook-extraction and
argument-consolidation pipeline.

The JavaScript source (the DiscourseHooksDB class together with its worker
logic) is shallowly embedded below.  JavaScript Maps are modelled as
insertion-ordered association lists, since the program's final artifact
iterates them in insertion order.  Array.prototype.sort with a numeric or
default (code-unit lexicographic) comparator is modelled with insertion sort,
which produces the same sorted arrangement on the duplicate-free lists the
program sorts.  Valid versions are exactly the tags matching v<d>.<d>.<d>
plus the sentinel "main", so versions are modelled as an inductive type.
-/

namespace HooksDB

/-- A version identifier: a three-component numeric tag (for tags matching
the pattern v<major>.<minor>.<patch>), or the sentinel branch "main". -/
inductive Version where
  | tag (major minor patch : Nat)
  | main
deriving DecidableEq, Repr

/-- Embedding of compareVersions (src/unnamed/part_001 lines 253-276).
On valid inputs the JS code parses the numeric components and returns the
first nonzero component difference; "main" compares greater than any tag. -/
def compareVersions : Version → Version → Int
  | .main, .main => 0
  | .main, _ => 1
  | _, .main => -1
  | .tag a b c, .tag d e f =>
    if a ≠ d then (a : Int) - (d : Int)
    else if b ≠ e then (b : Int) - (e : Int)
    else (c : Int) - (f : Int)

/-- The non-strict order induced by the comparator. -/
def vLe (a b : Version) : Prop := compareVersions a b ≤ 0

/-- The strict order induced by the comparator. -/
def vLt (a b : Version) : Prop := compareVersions a b < 0

instance : DecidableRel vLe := fun a b =>
  inferInstanceAs (Decidable (compareVersions a b ≤ 0))

instance : DecidableRel vLt := fun a b =>
  inferInstanceAs (Decidable (compareVersions a b < 0))

/-- JS Set-style accumulation: append each incoming element not already
present.  Used for line merging, argument merging and Set insertion order. -/
def pushNew {α : Type} [DecidableEq α] (existing incoming : List α) : List α :=
  incoming.foldl (fun acc x => if x ∈ acc then acc else acc ++ [x]) existing

/-- Iteration order of a JS Set built by adding the elements of a list:
first occurrence order, duplicates dropped. -/
def insertionOrderDedup {α : Type} [DecidableEq α] (l : List α) : List α :=
  pushNew [] l

/-- Mutating the record found by Array.prototype.find / Map.get: replace the
first element satisfying the predicate. -/
def updateFirst {α : Type} (p : α → Bool) (f : α → α) : List α → List α
  | [] => []
  | x :: xs => if p x then f x :: xs else x :: updateFirst p f xs

/-- Array.prototype.sort((a, b) => a - b) on a list of line numbers. -/
def numSort (l : List Nat) : List Nat :=
  List.insertionSort (fun a b => a ≤ b) l

/-- Lexicographic code-unit comparison of two character sequences: the
order JavaScript's default string comparison uses (restricted to the
surrogate-free strings this program sorts). -/
def charListLe : List Char → List Char → Bool
  | [], _ => true
  | _ :: _, [] => false
  | a :: as, b :: bs => if a = b then charListLe as bs else decide (a < b)

/-- The default-comparator string order of Array.prototype.sort(). -/
def jsStrLe (a b : String) : Prop := charListLe a.toList b.toList = true

instance : DecidableRel jsStrLe := fun a b =>
  inferInstanceAs (Decidable (charListLe a.toList b.toList = true))

/-- Array.prototype.sort() with the default comparator on strings. -/
def strSort (l : List String) : List String :=
  List.insertionSort jsStrLe l

/-! ### Character classes used by the source's regular expressions -/

/-- JS regex whitespace class \s, restricted to the ASCII whitespace the
scanned sources contain. -/
def isWs (c : Char) : Bool :=
  c == ' ' || c == '\t' || c == '\n' || c == '\r'

/-- The class [a-zA-Z_]. -/
def isIdentStart (c : Char) : Bool :=
  (('a' ≤ c && c ≤ 'z') || ('A' ≤ c && c ≤ 'Z')) || c == '_'

/-- The class [a-zA-Z0-9_], i.e. JS regex \w. -/
def isIdentChar (c : Char) : Bool :=
  isIdentStart c || ('0' ≤ c && c ≤ '9')

/-- String.prototype.trim on a character list. -/
def trimChars (l : List Char) : List Char :=
  ((l.dropWhile isWs).reverse.dropWhile isWs).reverse

/-- String.prototype.split(/\s+/): pieces between maximal whitespace runs,
with an empty piece at an end that starts or finishes with whitespace.
The flag records whether the scanner is inside a separator run. -/
def splitWsGo (cur : List Char) (inSep : Bool) : List Char → List (List Char)
  | [] => [cur.reverse]
  | c :: rest =>
    if isWs c then
      if inSep then splitWsGo [] true rest
      else cur.reverse :: splitWsGo [] true rest
    else splitWsGo (c :: cur) false rest

/-- String.prototype.split(/\s+/). -/
def splitWs (l : List Char) : List (List Char) :=
  splitWsGo [] false l

/-! ### Argument normalization (src/unnamed/part_001 lines 613-917) -/

/-- Embedding of extractPropertyName (lines 751-764): a shorthand property
name (^\w+$) or the name before a colon (^(\w+)\s*:). -/
def extractPropertyName (s : List Char) : Option String :=
  if s ≠ [] ∧ s.all isIdentChar then some (String.mk s)
  else
    let run := s.takeWhile isIdentChar
    match ((s.drop run.length).dropWhile isWs) with
    | ':' :: _ => if run ≠ [] then some (String.mk run) else none
    | _ => none

/-- One step of the property-name scan of normalizeAppEventArg
(lines 675-722): a quote/depth-aware split of the object body on top-level
commas, feeding each piece to extractPropertyName.  The JS loop appends the
current character in every branch except the top-level-comma branch. -/
def extractPropNamesGo (inStr : Bool) (strChar : Char) (depth : Int)
    (prev : Option Char) (current : List Char) (acc : List String) :
    List Char → List String
  | [] =>
    if (trimChars current) ≠ [] then
      match extractPropertyName (trimChars current) with
      | some n => acc ++ [n]
      | none => acc
    else acc
  | c :: rest =>
    if !inStr && (c == '"' || c == '\'') then
      extractPropNamesGo true c depth (some c) (current ++ [c]) acc rest
    else if inStr && c == strChar && prev ≠ some '\\' then
      extractPropNamesGo false strChar depth (some c) (current ++ [c]) acc rest
    else if !inStr && (c == '{' || c == '[' || c == '(') then
      extractPropNamesGo inStr strChar (depth + 1) (some c) (current ++ [c]) acc rest
    else if !inStr && (c == '}' || c == ']' || c == ')') then
      extractPropNamesGo inStr strChar (depth - 1) (some c) (current ++ [c]) acc rest
    else if !inStr && c == ',' && depth == 0 then
      let acc' :=
        if (trimChars current) ≠ [] then
          match extractPropertyName (trimChars current) with
          | some n => acc ++ [n]
          | none => acc
        else acc
      extractPropNamesGo inStr strChar depth (some c) [] acc' rest
    else
      extractPropNamesGo inStr strChar depth (some c) (current ++ [c]) acc rest

/-- The property names extracted from the body of an object literal. -/
def extractPropNames (body : List Char) : List String :=
  extractPropNamesGo false ' ' 0 none [] [] body

/-- Whether a character list matches ^['"].*['"]$ (the dot does not match
line terminators). -/
def isQuotedString (l : List Char) : Bool :=
  match l with
  | c :: rest =>
    (c == '"' || c == '\'') &&
    (match rest.getLast? with
     | some d =>
       (d == '"' || d == '\'') &&
       rest.dropLast.all (fun x => x != '\n' && x != '\r')
     | none => false)
  | [] => false

/-- Embedding of normalizeAppEventArg (lines 666-749).  An object literal is
replaced by its sorted property-name list in braces (or "object" when no
name was extracted); string/number/boolean/array/null literals are replaced
by their kind; anything else is passed through trimmed. -/
def normalizeAppEventArg (arg : String) : String :=
  let tl := trimChars arg.toList
  let trimmed := String.mk tl
  if tl.head? == some '{' && tl.getLast? == some '}' then
    let propNames := extractPropNames (tl.drop 1).dropLast
    if propNames.length > 0 then
      "\x7b" ++ String.intercalate "," (List.insertionSort jsStrLe propNames) ++ "\x7d"
    else "object"
  else if isQuotedString tl then "string"
  else if !tl.isEmpty && tl.all (fun c => c.isDigit) then "number"
  else if trimmed == "true" || trimmed == "false" then "boolean"
  else if tl.head? == some '[' && tl.getLast? == some ']' then "array"
  else if trimmed == "null" then "null"
  else trimmed

/-! ### normalizeArgument (lines 817-856): three global regex replaces.

Each replace is modelled as a left-to-right scanner that, at every position,
attempts the pattern (with the greedy semantics the JS engine gives it) and
on success emits the replacement and resumes after the match, otherwise
copies one character.  The scanners carry a fuel argument equal to the input
length plus one so that recursion is structural and kernel-evaluable; each
step consumes at least one input character, so the fuel never runs out. -/

/-- Attempt the pattern of the first replace,
two braces + "hash" + \s+ + ([^(closing brace)]+) + two braces, at the head
of the list.  The greedy group is the run up to the first closing brace;
when that run is empty the engine backtracks one whitespace character into
the group. Returns the captured group and the remainder after the match. -/
def matchHashAt (l : List Char) : Option (List Char × List Char) :=
  if l.take 6 = ['{', '{', 'h', 'a', 's', 'h'] then
    let t := l.drop 6
    let ws := t.takeWhile isWs
    let afterWs := t.dropWhile isWs
    if ws.isEmpty then none
    else
      let seg := afterWs.takeWhile (fun c => c != '}')
      if seg.isEmpty && ws.length < 2 then none
      else
        match afterWs.drop seg.length with
        | '}' :: '}' :: rest2 =>
          some ((if seg.isEmpty then ws.drop (ws.length - 1) else seg), rest2)
        | _ => none
  else none

/-- The replacement callback of the first replace: split the captured group
on whitespace and keep the part of each pair before "=", joined by spaces. -/
def hashKeys (content : List Char) : List Char :=
  List.intercalate [' '] ((splitWs content).map (fun p => p.takeWhile (fun c => c != '=')))

/-- The first replace of normalizeArgument, over the whole string. -/
def hashReplaceGo : Nat → List Char → List Char
  | 0, l => l
  | _ + 1, [] => []
  | fuel + 1, c :: rest =>
    match matchHashAt (c :: rest) with
    | some (group, rest2) =>
      ['{', '{', 'h', 'a', 's', 'h', ' '] ++ hashKeys group ++ ['}', '}'] ++
        hashReplaceGo fuel rest2
    | none => c :: hashReplaceGo fuel rest

/-- Whether a character list contains "hash" as a substring
(String.prototype.includes). -/
def containsHash (l : List Char) : Bool :=
  match l with
  | [] => false
  | _ :: t => ((l.take 4) == ['h', 'a', 's', 'h']) || containsHash t

/-- Attempt the pattern of the second replace, two braces + ([^(closing
brace)]+) + two braces, at the head of the list. -/
def matchBracesAt (l : List Char) : Option (List Char × List Char) :=
  match l with
  | '{' :: '{' :: t =>
    let seg := t.takeWhile (fun c => c != '}')
    if seg.isEmpty then none
    else
      match t.drop seg.length with
      | '}' :: '}' :: rest2 => some (seg, rest2)
      | _ => none
  | _ => none

/-- The second replace of normalizeArgument: a braces group whose content
has no "hash" and is a plain path (^[@\w.]+$) becomes a value placeholder;
everything else is kept verbatim. -/
def valueReplaceGo : Nat → List Char → List Char
  | 0, l => l
  | _ + 1, [] => []
  | fuel + 1, c :: rest =>
    match matchBracesAt (c :: rest) with
    | some (seg, rest2) =>
      let matched := '{' :: '{' :: (seg ++ ['}', '}'])
      (if containsHash seg then matched
       else if !seg.isEmpty && seg.all (fun x => x == '@' || isIdentChar x || x == '.') then
         ['{', '{', 'v', 'a', 'l', 'u', 'e', '}', '}']
       else matched) ++ valueReplaceGo fuel rest2
    | none => c :: valueReplaceGo fuel rest

/-- Attempt the pattern of the third replace, @(\w+)=(["'])([^"']*)\2, at
the head of the list.  Returns the attribute name, the quote character and
the remainder after the match. -/
def matchAttrAt (l : List Char) : Option (List Char × Char × List Char) :=
  match l with
  | '@' :: t =>
    let run := t.takeWhile isIdentChar
    if run.isEmpty then none
    else
      match t.drop run.length with
      | '=' :: q :: t2 =>
        if q == '"' || q == '\'' then
          let body := t2.takeWhile (fun c => c != '"' && c != '\'')
          match t2.drop body.length with
          | q2 :: rest2 => if q2 == q then some (run, q, rest2) else none
          | [] => none
        else none
      | _ => none
  | _ => none

/-- The third replace of normalizeArgument: rewrite a quoted attribute value
to the placeholder "string", keeping the attribute name and quote. -/
def attrReplaceGo : Nat → List Char → List Char
  | 0, l => l
  | _ + 1, [] => []
  | fuel + 1, c :: rest =>
    match matchAttrAt (c :: rest) with
    | some (run, q, rest2) =>
      '@' :: run ++ '=' :: q :: (['s', 't', 'r', 'i', 'n', 'g'] ++ [q]) ++
        attrReplaceGo fuel rest2
    | none => c :: attrReplaceGo fuel rest

/-- Embedding of normalizeArgument (lines 817-856): the three replaces
applied in source order. -/
def normalizeArgument (arg : String) : String :=
  let l1 := hashReplaceGo (arg.toList.length + 1) arg.toList
  let l2 := valueReplaceGo (l1.length + 1) l1
  String.mk (attrReplaceGo (l2.length + 1) l2)

/-! ### Choosing consolidated argument names (lines 360-427) -/

/-- The reserved structural tokens excluded from plain variable names. -/
def reservedNames : List String :=
  ["string", "number", "boolean", "null", "array", "object", "this"]

/-- Embedding of isPlainVariableName (lines 380-394):
^[a-zA-Z_][a-zA-Z0-9_]*$ and not a reserved token. -/
def isPlainVariableName (arg : String) : Bool :=
  (match arg.toList with
   | [] => false
   | c :: cs => isIdentStart c && cs.all isIdentChar) &&
  !(reservedNames.contains arg)

/-- Attempt \.([a-zA-Z_][a-zA-Z0-9_]*)\(\) at the head of the list: a dot,
a greedy identifier run, then an empty call-parenthesis pair. -/
def tryMethodAt : List Char → Option (List Char)
  | '.' :: c :: rest =>
    if isIdentStart c then
      match rest.dropWhile isIdentChar with
      | '(' :: ')' :: _ => some (c :: rest.takeWhile isIdentChar)
      | _ => none
    else none
  | _ => none

/-- Attempt \.([a-zA-Z_][a-zA-Z0-9_]*)$ at the head of the list: a dot, then
an identifier reaching the end of the string. -/
def tryMemberAt : List Char → Option (List Char)
  | '.' :: c :: rest =>
    if isIdentStart c && rest.all isIdentChar then some (c :: rest) else none
  | _ => none

/-- The regex engine's scan: try the pattern at each position, leftmost
match wins. -/
def scanFirst (f : List Char → Option (List Char)) : List Char → Option (List Char)
  | [] => none
  | c :: rest =>
    match f (c :: rest) with
    | some r => some r
    | none => scanFirst f rest

/-- Embedding of extractMethodOrMemberName (lines 396-410). -/
def extractMethodOrMemberName (arg : String) : Option String :=
  match scanFirst tryMethodAt arg.toList with
  | some r => some (String.mk r)
  | none =>
    match scanFirst tryMemberAt arg.toList with
    | some r => some (String.mk r)
    | none => none

/-- Embedding of chooseBestArgumentName (lines 360-378): the first plain
variable name, else the first method/member extraction, else "value". -/
def chooseBestArgumentName (argumentGroup : List String) : String :=
  match argumentGroup.find? isPlainVariableName with
  | some arg => arg
  | none =>
    match argumentGroup.findSome? extractMethodOrMemberName with
    | some extracted => extracted
    | none => "value"

/-- Modelled from the spec's words (spec 4.7): the property of the name
chosen for one argument position.  In priority order it is (a) a plain
non-reserved identifier among the tokens at that position; else (b) a
method-call or trailing member-access name extracted from one of those
tokens; else (c) the literal fallback "value". -/
def specChosenName (toks : List String) (c : String) : Prop :=
  (c ∈ toks ∧ isPlainVariableName c = true) ∨
  ((∀ t ∈ toks, isPlainVariableName t = false) ∧
    ∃ t ∈ toks, extractMethodOrMemberName t = some c) ∨
  ((∀ t ∈ toks, isPlainVariableName t = false) ∧
    (∀ t ∈ toks, extractMethodOrMemberName t = none) ∧ c = "value")

/-! ### Data model -/

/-- A raw hook occurrence as produced by findHooks inside one version's
snapshot (name, type tag, relative file path, spanned lines, normalized
argument tokens).  The single-line scan produces occurrences without an
arguments field, modelled by the empty list. -/
structure RawHook where
  name : String
  type : String
  file : String
  lines : List Nat
  arguments : List String
deriving DecidableEq, Repr

/-- A per-version record returned by a worker: a raw occurrence folded by
(name, type, file) and tagged with the version (lines 1153-1175). -/
structure WorkerHook where
  name : String
  type : String
  file : String
  lines : List Nat
  arguments : List String
  version : Version
deriving DecidableEq, Repr

/-- A Location of the merged index (one per hook, version and file). -/
structure Location where
  version : Version
  file : String
  lines : List Nat
  arguments : List String
deriving DecidableEq, Repr

/-- An entry of a hook's argumentHistory map. -/
structure ArgHistEntry where
  arguments : List String
  firstSeenVersion : Version
  versions : List Version
deriving DecidableEq, Repr

/-- A Hook of the merged index.  The argumentHistory Map (keyed by the
JSON.stringify image of the argument list, injective on these lists, so the
key is modelled by the list itself) is an insertion-ordered association
list. -/
structure HookData where
  name : String
  type : String
  firstVersion : Version
  locations : List Location
  argumentHistory : List (List String × ArgHistEntry)
deriving DecidableEq, Repr

/-- The JS Map key of the worker-side aggregation
(name + "|" + type + "|" + file). -/
def keyMatch (e : WorkerHook) (h : RawHook) : Bool :=
  e.name == h.name && e.type == h.type && e.file == h.file

/-- One step of the worker-side aggregation of processVersion
(lines 1151-1175): find-or-create the record for the occurrence's
(name, type, file) key; on a hit, union the new lines into the record
(membership-checked push, then numeric sort); arguments stay those of the
first occurrence. -/
def workerStep (v : Version) (m : List WorkerHook) (h : RawHook) : List WorkerHook :=
  if m.any (fun e => keyMatch e h) then
    updateFirst (fun e => keyMatch e h)
      (fun e => { e with lines := numSort (pushNew e.lines h.lines) }) m
  else
    m ++ [⟨h.name, h.type, h.file, h.lines, h.arguments, v⟩]

/-- The worker-side aggregation over all occurrences found in one version. -/
def processVersionFold (v : Version) (hooks : List RawHook) : List WorkerHook :=
  hooks.foldl (workerStep v) []

/-- Whether a hook type carries argument history (lines 91-94, 281-285):
behavior transformers and plugin outlets do not. -/
def argTracking (t : String) : Bool :=
  t == "value_transformer" || t == "app_event_trigger"

/-- One step of the cross-version merge of run() (lines 52-118): find-or-
create the Hook by name (firstVersion is set on creation and never touched
again); find-or-create its Location by (version, file), unioning lines and —
for argument-tracking types — argument tokens on a hit; then record the raw
argument tuple in the provisional argumentHistory map, pushing the version
unconditionally. -/
def mergeStep (db : List HookData) (hook : WorkerHook) : List HookData :=
  let db1 :=
    if db.any (fun hd => hd.name == hook.name) then db
    else db ++ [⟨hook.name, hook.type, hook.version, [], []⟩]
  updateFirst (fun hd => hd.name == hook.name)
    (fun hd =>
      let hd1 :=
        if hd.locations.any (fun loc => loc.version == hook.version && loc.file == hook.file) then
          { hd with
            locations :=
              updateFirst (fun loc => loc.version == hook.version && loc.file == hook.file)
                (fun loc =>
                  { loc with
                    lines := numSort (pushNew loc.lines hook.lines)
                    arguments :=
                      if hook.type == "value_transformer" || hook.type == "app_event_trigger" then
                        strSort (pushNew loc.arguments hook.arguments)
                      else loc.arguments })
                hd.locations }
        else
          { hd with locations := hd.locations ++ [⟨hook.version, hook.file, hook.lines, hook.arguments⟩] }
      let hist1 :=
        if hd1.argumentHistory.any (fun p => p.1 == hook.arguments) then hd1.argumentHistory
        else hd1.argumentHistory ++ [(hook.arguments, ⟨hook.arguments, hook.version, []⟩)]
      { hd1 with
        argumentHistory :=
          updateFirst (fun p => p.1 == hook.arguments)
            (fun p => (p.1, { p.2 with versions := p.2.versions ++ [hook.version] })) hist1 })
    db1

/-- The whole merge phase: fold every worker result, in arrival order, into
the master index (lines 52-119). -/
def mergeAll (results : List (List WorkerHook)) : List HookData :=
  results.foldl (fun db hooks => hooks.foldl mergeStep db) []

/-! ### Argument consolidation (lines 278-358) -/

/-- The argument arrays collected by consolidateArgumentsForVersion
(lines 326-334): the argument list of every Location of the hook at the
version that has a non-empty one. -/
def argumentArraysFor (hd : HookData) (version : Version) : List (List String) :=
  ((hd.locations.filter (fun loc => loc.version == version)).filter
    (fun loc => decide (0 < loc.arguments.length))).map (fun loc => loc.arguments)

/-- Math.max over the argument array lengths (line 341). -/
def maxArgLength (arrays : List (List String)) : Nat :=
  (arrays.map List.length).foldl max 0

/-- The tokens at one position: from every array long enough to have one
(lines 349-351). -/
def tokensAtPosition (arrays : List (List String)) (i : Nat) : List String :=
  (arrays.filter (fun args => decide (i < args.length))).map (fun args => args.getD i "")

/-- Embedding of consolidateArgumentsForVersion (lines 324-358). -/
def consolidateArgumentsForVersion (hd : HookData) (version : Version) : List String :=
  let arrays := argumentArraysFor hd version
  if arrays.isEmpty then []
  else (List.range (maxArgLength arrays)).map
    (fun i => chooseBestArgumentName (tokensAtPosition arrays i))

/-- The Set of all versions mentioned by a hook's provisional argument
history, in insertion order (lines 289-292). -/
def allVersionsOf (hd : HookData) : List Version :=
  insertionOrderDedup (hd.argumentHistory.foldl (fun acc p => acc ++ p.2.versions) [])

/-- One step of consolidateArgumentHistory's version loop (lines 297-317):
find-or-create the consolidated entry keyed by this version's consolidated
signature (firstSeenVersion is the version that created the entry) and add
the version to it once. -/
def consStep (hd : HookData) (m : List (List String × ArgHistEntry)) (version : Version) :
    List (List String × ArgHistEntry) :=
  let consolidatedArgs := consolidateArgumentsForVersion hd version
  let m1 :=
    if m.any (fun p => p.1 == consolidatedArgs) then m
    else m ++ [(consolidatedArgs, ⟨consolidatedArgs, version, []⟩)]
  updateFirst (fun p => p.1 == consolidatedArgs)
    (fun p =>
      if version ∈ p.2.versions then p
      else (p.1, { p.2 with versions := p.2.versions ++ [version] })) m1

/-- The consolidated argument history of one hook. -/
def consolidatedHistoryOf (hd : HookData) : List (List String × ArgHistEntry) :=
  (allVersionsOf hd).foldl (consStep hd) []

/-- Per-hook action of consolidateArgumentHistory (lines 278-322): only
value transformers and app event triggers are consolidated. -/
def consolidateHook (hd : HookData) : HookData :=
  if argTracking hd.type then { hd with argumentHistory := consolidatedHistoryOf hd }
  else hd

/-- Embedding of consolidateArgumentHistory over the whole index. -/
def consolidateArgumentHistory (db : List HookData) : List HookData :=
  db.map consolidateHook

/-- The pairwise-disjointness invariant claimed for a hook's argument
history: no version belongs to two different entries. -/
def historyDisjoint (hd : HookData) : Prop :=
  List.Pairwise (fun p q => ∀ v, v ∈ p.2.versions → v ∉ q.2.versions) hd.argumentHistory

instance : DecidableRel
    (fun (p q : List String × ArgHistEntry) => ∀ v, v ∈ p.2.versions → v ∉ q.2.versions) :=
  fun _ q => List.decidableBAll (fun v => v ∉ q.2.versions) _

instance (hd : HookData) : Decidable (historyDisjoint hd) :=
  inferInstanceAs (Decidable (List.Pairwise _ hd.argumentHistory))

/-! ### Report statistics (generateReport, lines 949-1044) -/

/-- A serialized argumentHistory entry of the artifact (lines 952-959). -/
structure ArgSigReport where
  argumentSignature : List String
  firstSeenVersion : Version
  versions : List Version
  changeCount : Nat
deriving DecidableEq, Repr

/-- An element of the artifact's hooks array (lines 950-970). -/
structure ReportHook where
  name : String
  type : String
  firstVersion : Version
  locations : List Location
  argumentHistory : List ArgSigReport
  hasArgumentChanges : Bool
  argumentChangeCount : Int
deriving DecidableEq, Repr

/-- Serialization of one merged hook into its artifact entry
(lines 950-970). -/
def toReportHook (hd : HookData) : ReportHook :=
  let arr := hd.argumentHistory.map
    (fun p => ArgSigReport.mk p.2.arguments p.2.firstSeenVersion p.2.versions p.2.versions.length)
  ⟨hd.name, hd.type, hd.firstVersion, hd.locations, arr,
    decide (1 < arr.length), (arr.length : Int) - 1⟩

/-- The Set of every location version across all hooks, in insertion order
(lines 973-978). -/
def allLocationVersions (hooks : List ReportHook) : List Version :=
  insertionOrderDedup (hooks.foldl (fun acc h => acc ++ h.locations.map (fun loc => loc.version)) [])

/-- The latest version: the last element of the versions sorted under
compareVersions (lines 980-983). -/
def latestVersionOf (hooks : List ReportHook) : Option Version :=
  (List.insertionSort vLe (allLocationVersions hooks)).getLast?

/-- The hooks having at least one Location at the latest version
(lines 986-988). -/
def hooksInLatestVersion (hooks : List ReportHook) (latest : Version) : List ReportHook :=
  hooks.filter (fun h => h.locations.any (fun loc => loc.version == latest))

/-- The artifact's top-level hooksWithArgumentChanges count
(lines 1005-1007). -/
def hooksWithArgumentChangesCount (hooks : List ReportHook) (latest : Version) : Nat :=
  ((hooksInLatestVersion hooks latest).filter (fun h => h.hasArgumentChanges)).length

/-- The artifact's summary.totalArgumentChanges sum (lines 1015-1018). -/
def totalArgumentChangesSum (hooks : List ReportHook) (latest : Version) : Int :=
  (hooksInLatestVersion hooks latest).foldl (fun s h => s + h.argumentChangeCount) 0

/-- The two latest-version argument-change statistics of the artifact; when
no version exists the filters match nothing and both are zero. -/
def reportStats (hooks : List ReportHook) : Nat × Int :=
  match latestVersionOf hooks with
  | some latest => (hooksWithArgumentChangesCount hooks latest, totalArgumentChangesSum hooks latest)
  | none => (0, 0)

/-! ### Scheduler completion accounting (lines 127-196, 1194-1197)

A worker ends in one of three ways: it posts a success message carrying
hooks and timing; its processVersion catches an exception and posts the
bare empty-array message (line 1196); or it raises an uncaught error,
firing the error event.  The main thread's handlers (lines 146-188) are a
pure fold over the sequence of such reports: the success message increments
the completion counter and stores the hooks, the error event increments the
counter, and the caught-error message only logs.  The promise resolves as
soon as the counter reaches the number of versions. -/

/-- The three ways one worker reports back. -/
inductive WorkerReport where
  | success (hooks : List WorkerHook)
  | caughtError
  | uncaughtError
deriving DecidableEq, Repr

/-- The scheduler's observable accounting state. -/
structure SchedulerState where
  completed : Nat
  results : List (List WorkerHook)
  resolved : Bool
deriving DecidableEq, Repr

/-- One report handled by the main thread (lines 146-188). -/
def schedulerStep (total : Nat) (s : SchedulerState) : WorkerReport → SchedulerState
  | .success hooks =>
    let completed := s.completed + 1
    { completed := completed, results := s.results ++ [hooks],
      resolved := s.resolved || completed == total }
  | .caughtError =>
    { s with resolved := s.resolved || s.completed == total }
  | .uncaughtError =>
    let completed := s.completed + 1
    { s with completed := completed, resolved := s.resolved || completed == total }

/-- The scheduler's accounting over a full sequence of worker reports. -/
def runScheduler (total : Nat) (reports : List WorkerReport) : SchedulerState :=
  reports.foldl (schedulerStep total) ⟨0, [], false⟩

/-! ### Concrete inputs used by the claim checks -/

/-- The consolidation example: one hook with two call sites at the same
version, raw args [topic, user] and [topic]. -/
def exConsolidationHook : HookData :=
  ⟨"X", "value_transformer", .tag 1 0 0,
    [⟨.tag 1 0 0, "a.js", [1], ["topic", "user"]⟩,
     ⟨.tag 1 0 0, "b.js", [2], ["topic"]⟩], []⟩

/-- A worker result record for hook X observed at v0.0.1. -/
def wh1 : WorkerHook := ⟨"X", "value_transformer", "a.js", [1], ["topic"], .tag 0 0 1⟩

/-- The same hook X observed at v0.0.2. -/
def wh2 : WorkerHook := ⟨"X", "value_transformer", "a.js", [1], ["topic"], .tag 0 0 2⟩

/-- A plugin outlet observed at v0.0.1 in one file with argument token a. -/
def po1 : WorkerHook := ⟨"Y", "plugin_outlet", "a.hbs", [1], ["a"], .tag 0 0 1⟩

/-- The same plugin outlet at the same version in another file with
argument token b. -/
def po2 : WorkerHook := ⟨"Y", "plugin_outlet", "b.hbs", [2], ["b"], .tag 0 0 1⟩

/-- A merged value transformer used to witness consolidated-history
disjointness. -/
def exVtHook : HookData :=
  ⟨"V", "value_transformer", .tag 0 0 1,
    [⟨.tag 0 0 1, "a.js", [1], ["topic"]⟩, ⟨.tag 0 0 2, "a.js", [1], ["topic"]⟩],
    [(["topic"], ⟨["topic"], .tag 0 0 1, [.tag 0 0 1, .tag 0 0 2]⟩)]⟩

/-- An artifact hook present at the latest version (v0.0.2), without
argument changes. -/
def rpActive : ReportHook :=
  ⟨"A", "value_transformer", .tag 0 0 1,
    [⟨.tag 0 0 1, "a.js", [1], []⟩, ⟨.tag 0 0 2, "a.js", [1], []⟩],
    [⟨[], .tag 0 0 1, [.tag 0 0 1], 1⟩], false, 0⟩

/-- An artifact hook with two argument-history entries (so it counts as
having argument changes) that is absent from the latest version. -/
def rpRetired : ReportHook :=
  ⟨"B", "value_transformer", .tag 0 0 1,
    [⟨.tag 0 0 1, "b.js", [1], []⟩],
    [⟨["x"], .tag 0 0 1, [.tag 0 0 1], 1⟩, ⟨["y"], .tag 0 0 1, [.tag 0 0 1], 1⟩],
    true, 1⟩

/-- A raw occurrence used for the worker-fold idempotence witness. -/
def exRawHook : RawHook := ⟨"Z", "plugin_outlet", "f.hbs", [3, 4], []⟩

end HooksDB

namespace HooksDB

/-! ## Helper lemmas -/

lemma compareVersions_eq_zero_iff (u v : Version) : compareVersions u v = 0 ↔ u = v := by
  cases u <;> cases v <;> simp only [compareVersions, Version.tag.injEq] <;>
    first
      | (split_ifs <;> omega)
      | simp

lemma compareVersions_neg (u v : Version) : compareVersions v u = -compareVersions u v := by
  cases u <;> cases v <;> simp only [compareVersions] <;>
    first
      | omega
      | (split_ifs <;> omega)

lemma vLe_total (u v : Version) : vLe u v ∨ vLe v u := by
  cases u <;> cases v <;> simp only [vLe, compareVersions] <;>
    first
      | omega
      | (split_ifs <;> omega)

lemma vLe_antisymm (u v : Version) : vLe u v → vLe v u → u = v := by
  intro h1 h2
  apply (compareVersions_eq_zero_iff u v).mp
  simp only [vLe] at h1 h2
  rw [compareVersions_neg u v] at h2
  omega

lemma vLe_trans (u v w : Version) : vLe u v → vLe v w → vLe u w := by
  cases u <;> cases v <;> cases w <;> simp only [vLe, compareVersions] <;> intro h1 h2 <;>
    first
      | omega
      | (split_ifs at h1 h2 ⊢ <;> omega)

lemma chooseBest_satisfies_spec (g : List String) :
    specChosenName g (chooseBestArgumentName g) := by
  cases hf : g.find? isPlainVariableName with
  | some a =>
    have hc : chooseBestArgumentName g = a := by simp [chooseBestArgumentName, hf]
    rw [hc]
    exact Or.inl ⟨List.mem_of_find?_eq_some hf, List.find?_some hf⟩
  | none =>
    have hnone : ∀ t ∈ g, isPlainVariableName t = false := by
      intro t ht
      simpa using List.find?_eq_none.mp hf t ht
    cases hs : g.findSome? extractMethodOrMemberName with
    | some b =>
      have hc : chooseBestArgumentName g = b := by simp [chooseBestArgumentName, hf, hs]
      rw [hc]
      exact Or.inr (Or.inl ⟨hnone, List.exists_of_findSome?_eq_some hs⟩)
    | none =>
      have hc : chooseBestArgumentName g = "value" := by simp [chooseBestArgumentName, hf, hs]
      rw [hc]
      exact Or.inr (Or.inr ⟨hnone, fun t ht => List.findSome?_eq_none_iff.mp hs t ht, rfl⟩)

lemma hooksInLatest_append_not (hooks : List ReportHook) (h : ReportHook) (latest : Version)
    (hp : (h.locations.any (fun loc => loc.version == latest)) = false) :
    hooksInLatestVersion (hooks ++ [h]) latest = hooksInLatestVersion hooks latest := by
  simp [hooksInLatestVersion, List.filter_append, hp]

lemma charListLe_total : ∀ as bs : List Char, charListLe as bs = true ∨ charListLe bs as = true := by
  intro as
  induction as with
  | nil => intro bs; left; rfl
  | cons a as ih =>
    intro bs
    cases bs with
    | nil => right; rfl
    | cons b bs =>
      by_cases hab : a = b
      · subst hab
        simp only [charListLe, if_pos]
        exact ih bs
      · rcases lt_trichotomy a b with h | h | h
        · left; simp [charListLe, hab, h]
        · exact absurd h hab
        · right
          have hba : ¬b = a := fun e => hab e.symm
          simp [charListLe, hba, h]

lemma charListLe_trans : ∀ as bs cs : List Char,
    charListLe as bs = true → charListLe bs cs = true → charListLe as cs = true := by
  intro as
  induction as with
  | nil => intro bs cs _ _; rfl
  | cons a as ih =>
    intro bs cs h1 h2
    cases bs with
    | nil => exact absurd h1 (by simp [charListLe])
    | cons b bs =>
      cases cs with
      | nil => exact absurd h2 (by simp [charListLe])
      | cons c cs =>
        simp only [charListLe] at h1 h2 ⊢
        by_cases hab : a = b <;> by_cases hbc : b = c
        · subst hab; subst hbc
          rw [if_pos rfl] at h1 h2 ⊢
          exact ih _ _ h1 h2
        · subst hab
          rw [if_pos rfl] at h1
          rw [if_neg hbc] at h2 ⊢
          exact h2
        · subst hbc
          rw [if_neg hab] at h1 ⊢
          exact h1
        · rw [if_neg hab] at h1
          rw [if_neg hbc] at h2
          have hac : a < c := lt_trans (of_decide_eq_true h1) (of_decide_eq_true h2)
          rw [if_neg (ne_of_lt hac)]
          exact decide_eq_true hac

lemma charListLe_antisymm : ∀ as bs : List Char,
    charListLe as bs = true → charListLe bs as = true → as = bs := by
  intro as
  induction as with
  | nil =>
    intro bs h1 h2
    cases bs with
    | nil => rfl
    | cons b bs => exact absurd h2 (by simp [charListLe])
  | cons a as ih =>
    intro bs h1 h2
    cases bs with
    | nil => exact absurd h1 (by simp [charListLe])
    | cons b bs =>
      simp only [charListLe] at h1 h2
      by_cases hab : a = b
      · subst hab
        rw [if_pos rfl] at h1 h2
        rw [ih bs h1 h2]
      · rw [if_neg hab] at h1
        rw [if_neg (fun e => hab e.symm)] at h2
        exact absurd (of_decide_eq_true h2) (lt_asymm (of_decide_eq_true h1))

lemma pushNew_cons {α : Type} [DecidableEq α] (a : List α) (c : α) (cs : List α) :
    pushNew a (c :: cs) = pushNew (if c ∈ a then a else a ++ [c]) cs := rfl

lemma mem_pushNew {α : Type} [DecidableEq α] (b a : List α) (x : α) :
    x ∈ pushNew a b ↔ x ∈ a ∨ x ∈ b := by
  induction b generalizing a with
  | nil => simp [pushNew]
  | cons c cs ih =>
    rw [pushNew_cons, ih]
    by_cases hc : c ∈ a
    · simp only [if_pos hc, List.mem_cons]
      constructor
      · rintro (hx | hx)
        · exact Or.inl hx
        · exact Or.inr (Or.inr hx)
      · rintro (hx | hx | hx)
        · exact Or.inl hx
        · exact Or.inl (by rw [hx]; exact hc)
        · exact Or.inr hx
    · simp only [if_neg hc, List.mem_append, List.mem_singleton, List.mem_cons]
      tauto

lemma nodup_pushNew {α : Type} [DecidableEq α] (b a : List α) (ha : a.Nodup) :
    (pushNew a b).Nodup := by
  induction b generalizing a with
  | nil => exact ha
  | cons c cs ih =>
    rw [pushNew_cons]
    by_cases hc : c ∈ a
    · rw [if_pos hc]
      exact ih a ha
    · rw [if_neg hc]
      refine ih _ ?_
      rw [List.nodup_append]
      exact ⟨ha, List.nodup_singleton c,
        fun x hx hxc => hc (by rwa [List.mem_singleton.mp hxc] at hx)⟩

lemma pushNew_of_subset {α : Type} [DecidableEq α] (a b : List α) (hb : ∀ x ∈ b, x ∈ a) :
    pushNew a b = a := by
  induction b with
  | nil => rfl
  | cons c cs ih =>
    rw [pushNew_cons, if_pos (hb c (List.mem_cons_self c cs))]
    exact ih (fun x hx => hb x (List.mem_cons_of_mem _ hx))

lemma mem_numSort (l : List Nat) (x : Nat) : x ∈ numSort l ↔ x ∈ l :=
  (List.perm_insertionSort _ l).mem_iff

lemma nodup_numSort (l : List Nat) (hl : l.Nodup) : (numSort l).Nodup :=
  (List.perm_insertionSort _ l).nodup_iff.mpr hl

lemma sorted_numSort (l : List Nat) : (numSort l).Sorted (· ≤ ·) :=
  List.sorted_insertionSort _ l

lemma keyMatch_iff (e : WorkerHook) (h : RawHook) :
    keyMatch e h = true ↔ e.name = h.name ∧ e.type = h.type ∧ e.file = h.file := by
  simp [keyMatch, and_assoc]

lemma updateFirst_append_last {α : Type} (p : α → Bool) (f : α → α) (l : List α) (x : α)
    (hl : ∀ y ∈ l, p y = false) (hx : p x = true) :
    updateFirst p f (l ++ [x]) = l ++ [f x] := by
  induction l with
  | nil => simp [updateFirst, hx]
  | cons c t ih =>
    have hc := hl c (by simp)
    simp only [List.cons_append, updateFirst, hc]
    simp [ih (fun y hy => hl y (List.mem_cons_of_mem _ hy))]

lemma updateFirst_decomp {α : Type} (p : α → Bool) (f : α → α) :
    ∀ l : List α, l.any p = true →
      ∃ pre x post, l = pre ++ x :: post ∧ (∀ y ∈ pre, p y = false) ∧ p x = true ∧
        updateFirst p f l = pre ++ f x :: post := by
  intro l
  induction l with
  | nil => intro h; simp at h
  | cons c t ih =>
    intro h
    by_cases hc : p c = true
    · exact ⟨[], c, t, rfl, by simp, hc, by simp [updateFirst, hc]⟩
    · have hc' : p c = false := by
        cases hpc : p c with
        | true => exact absurd hpc hc
        | false => rfl
      have ht : t.any p = true := by
        rcases List.any_eq_true.mp h with ⟨x, hx, hpx⟩
        rcases List.mem_cons.mp hx with rfl | hxt
        · exact absurd hpx hc
        · exact List.any_eq_true.mpr ⟨x, hxt, hpx⟩
      obtain ⟨pre, x, post, he, hpre, hpx, hu⟩ := ih ht
      refine ⟨c :: pre, x, post, by rw [List.cons_append, he], ?_, hpx, ?_⟩
      · intro y hy
        rcases List.mem_cons.mp hy with rfl | hyp
        · exact hc'
        · exact hpre y hyp
      · simp [updateFirst, hc', hu]

lemma keyMatch_of_keyMatch {e e' : WorkerHook} {h' h : RawHook}
    (h1 : keyMatch e h' = true) (h2 : keyMatch e' h' = true) (h3 : keyMatch e' h = true) :
    keyMatch e h = true := by
  rw [keyMatch_iff] at h1 h2 h3 ⊢
  exact ⟨h1.1.trans (h2.1.symm.trans h3.1), h1.2.1.trans (h2.2.1.symm.trans h3.2.1),
    h1.2.2.trans (h2.2.2.symm.trans h3.2.2)⟩

lemma wkey_eq_of_keyMatch {e e' : WorkerHook} {h : RawHook} (h1 : keyMatch e h = true)
    (h2 : keyMatch e' h = true) : (e.name, e.type, e.file) = (e'.name, e'.type, e'.file) := by
  rw [keyMatch_iff] at h1 h2
  simp only [Prod.mk.injEq]
  exact ⟨h1.1.trans h2.1.symm, h1.2.1.trans h2.2.1.symm, h1.2.2.trans h2.2.2.symm⟩

lemma entry_extend (ps : List RawHook) (h : RawHook) (e : WorkerHook)
    (hk : ¬keyMatch e h = true)
    (hlin : ∀ l, l ∈ e.lines ↔ ∃ h' ∈ ps, keyMatch e h' = true ∧ l ∈ h'.lines)
    (hfind : ∃ h0, ps.find? (fun h' => keyMatch e h') = some h0 ∧ e.arguments = h0.arguments) :
    (∀ l, l ∈ e.lines ↔ ∃ h' ∈ ps ++ [h], keyMatch e h' = true ∧ l ∈ h'.lines) ∧
    (∃ h0, (ps ++ [h]).find? (fun h' => keyMatch e h') = some h0 ∧
      e.arguments = h0.arguments) := by
  constructor
  · intro l
    rw [hlin l]
    constructor
    · rintro ⟨h', hm, hkk, hl⟩
      exact ⟨h', List.mem_append.mpr (Or.inl hm), hkk, hl⟩
    · rintro ⟨h', hm, hkk, hl⟩
      rcases List.mem_append.mp hm with hm | hm
      · exact ⟨h', hm, hkk, hl⟩
      · rw [List.mem_singleton.mp hm] at hkk
        exact absurd hkk hk
  · obtain ⟨h0, hf, ha⟩ := hfind
    refine ⟨h0, ?_, ha⟩
    rw [List.find?_append, hf]
    rfl

lemma consStep_present (hd : HookData) (m : List (List String × ArgHistEntry)) (vv : Version)
    (h : m.any (fun p => p.1 == consolidateArgumentsForVersion hd vv) = true) :
    consStep hd m vv =
      updateFirst (fun p => p.1 == consolidateArgumentsForVersion hd vv)
        (fun p =>
          if vv ∈ p.2.versions then p
          else (p.1, { p.2 with versions := p.2.versions ++ [vv] })) m := by
  simp only [consStep]
  rw [if_pos h]

lemma consStep_absent (hd : HookData) (m : List (List String × ArgHistEntry)) (vv : Version)
    (h : m.any (fun p => p.1 == consolidateArgumentsForVersion hd vv) = false) :
    consStep hd m vv =
      m ++ [(consolidateArgumentsForVersion hd vv,
        ⟨consolidateArgumentsForVersion hd vv, vv, [vv]⟩)] := by
  have hall : ∀ y ∈ m, (y.1 == consolidateArgumentsForVersion hd vv) = false := by
    intro y hy
    cases hp : (y.1 == consolidateArgumentsForVersion hd vv) with
    | true => exact absurd hp (List.any_eq_false.mp h y hy)
    | false => rfl
  simp only [consStep]
  rw [if_neg (by simp [h]), updateFirst_append_last _ _ _ _ hall (by simp)]
  simp

lemma consStep_inv (hd : HookData) (m : List (List String × ArgHistEntry)) (vv : Version)
    (h1 : (m.map Prod.fst).Nodup)
    (h2 : ∀ p ∈ m, ∀ v ∈ p.2.versions, consolidateArgumentsForVersion hd v = p.1)
    (h3 : List.Pairwise (fun p q => ∀ v, v ∈ p.2.versions → v ∉ q.2.versions) m) :
    ((consStep hd m vv).map Prod.fst).Nodup ∧
    (∀ p ∈ consStep hd m vv, ∀ v ∈ p.2.versions, consolidateArgumentsForVersion hd v = p.1) ∧
    List.Pairwise (fun p q => ∀ v, v ∈ p.2.versions → v ∉ q.2.versions) (consStep hd m vv) := by
  by_cases hmem : m.any (fun p => p.1 == consolidateArgumentsForVersion hd vv) = true
  · have hdec := updateFirst_decomp
      (fun q => q.1 == consolidateArgumentsForVersion hd vv)
      (fun q =>
        if vv ∈ q.2.versions then q
        else (q.1, { q.2 with versions := q.2.versions ++ [vv] })) m hmem
    obtain ⟨pre, x, post, he, hpre, hpx, hu⟩ := hdec
    have hxkey : x.1 = consolidateArgumentsForVersion hd vv := eq_of_beq hpx
    by_cases hv : vv ∈ x.2.versions
    · have hfx : (fun q : List String × ArgHistEntry =>
          if vv ∈ q.2.versions then q
          else (q.1, { q.2 with versions := q.2.versions ++ [vv] })) x = x := by
        simp [hv]
      rw [consStep_present hd m vv hmem, hu, hfx, ← he]
      exact ⟨h1, h2, h3⟩
    · have hfx : (fun q : List String × ArgHistEntry =>
          if vv ∈ q.2.versions then q
          else (q.1, { q.2 with versions := q.2.versions ++ [vv] })) x =
          (x.1, { x.2 with versions := x.2.versions ++ [vv] }) := by
        simp [hv]
      rw [consStep_present hd m vv hmem, hu, hfx]
      rw [he] at h1 h2 h3
      have hkeys :
          ((pre ++ x :: post).map Prod.fst).Nodup := h1
      have hx_not_pre : ∀ a ∈ pre, a.1 ≠ x.1 := by
        intro a ha
        have hbeq : (a.1 == consolidateArgumentsForVersion hd vv) = false := hpre a ha
        intro he'
        rw [he', hxkey] at hbeq
        simp at hbeq
      have hx_not_post : x.1 ∉ post.map Prod.fst := by
        have hmid := List.nodup_middle.mp
          (show ((pre.map Prod.fst) ++ x.1 :: (post.map Prod.fst)).Nodup by simpa using h1)
        rcases List.nodup_cons.mp hmid with ⟨hnx, _⟩
        intro hcon
        exact hnx (List.mem_append.mpr (Or.inr hcon))
      rcases List.pairwise_append.mp h3 with ⟨hp_pre, hp_mid, hp_cross⟩
      rcases List.pairwise_cons.mp hp_mid with ⟨hx_post, hp_post⟩
      refine ⟨?_, ?_, ?_⟩
      · simpa using h1
      · intro p hp v hvv
        rcases List.mem_append.mp hp with hpp | hpp
        · exact h2 p (List.mem_append.mpr (Or.inl hpp)) v hvv
        · rcases List.mem_cons.mp hpp with rfl | hpp
          · simp only at hvv
            rcases List.mem_append.mp hvv with hold | hnew
            · exact h2 x (List.mem_append.mpr (Or.inr (List.mem_cons_self _ _))) v hold
            · rw [List.mem_singleton.mp hnew, hxkey]
          · exact h2 p (List.mem_append.mpr (Or.inr (List.mem_cons_of_mem _ hpp))) v hvv
      · rw [List.pairwise_append]
        refine ⟨hp_pre, ?_, ?_⟩
        · rw [List.pairwise_cons]
          constructor
          · intro b hb v hvv
            simp only at hvv
            rcases List.mem_append.mp hvv with hold | hnew
            · exact hx_post b hb v hold
            · rw [List.mem_singleton.mp hnew]
              intro hcon
              have hbkey := h2 b (List.mem_append.mpr (Or.inr (List.mem_cons_of_mem _ hb)))
                vv hcon
              exact hx_not_post (by rw [hxkey, hbkey]; exact List.mem_map_of_mem _ hb)
          · exact hp_post
        · intro a ha b hb v hvv
          rcases List.mem_cons.mp hb with rfl | hbp
          · simp only
            intro hcon
            rcases List.mem_append.mp hcon with hold | hnew
            · exact hp_cross a ha x (List.mem_cons_self _ _) v hvv hold
            · have hakey := h2 a (List.mem_append.mpr (Or.inl ha)) v hvv
              rw [List.mem_singleton.mp hnew] at hakey
              exact hx_not_pre a ha (by rw [← hakey, hxkey])
          · exact hp_cross a ha b (List.mem_cons_of_mem _ hbp) v hvv
  · have hmem' : m.any (fun p => p.1 == consolidateArgumentsForVersion hd vv) = false := by
      cases hp : m.any (fun p => p.1 == consolidateArgumentsForVersion hd vv) with
      | true => exact absurd hp hmem
      | false => rfl
    rw [consStep_absent hd m vv hmem']
    have hknot : consolidateArgumentsForVersion hd vv ∉ m.map Prod.fst := by
      intro hcon
      rcases List.mem_map.mp hcon with ⟨y, hy, hyk⟩
      have := List.any_eq_false.mp hmem' y hy
      rw [hyk] at this
      simp at this
    refine ⟨?_, ?_, ?_⟩
    · simp only [List.map_append, List.map_cons, List.map_nil]
      rw [List.nodup_append]
      refine ⟨h1, List.nodup_singleton _, ?_⟩
      intro a ha hcon
      rw [List.mem_singleton.mp hcon] at ha
      exact hknot ha
    · intro p hp v hvv
      rcases List.mem_append.mp hp with hpp | hpp
      · exact h2 p hpp v hvv
      · rw [List.mem_singleton.mp hpp] at hvv ⊢
        simp only at hvv ⊢
        rw [List.mem_singleton.mp hvv]
    · rw [List.pairwise_append]
      refine ⟨h3, List.pairwise_singleton _ _, ?_⟩
      intro a ha b hb v hvv
      rw [List.mem_singleton.mp hb]
      simp only [List.mem_singleton]
      intro hcon
      have hakey := h2 a ha v hvv
      rw [hcon] at hakey
      exact hknot (by rw [hakey]; exact List.mem_map_of_mem _ ha)

lemma consFold_inv (hd : HookData) (vs : List Version) :
    ((vs.foldl (consStep hd) []).map Prod.fst).Nodup ∧
    (∀ p ∈ vs.foldl (consStep hd) [], ∀ v ∈ p.2.versions,
      consolidateArgumentsForVersion hd v = p.1) ∧
    List.Pairwise (fun p q => ∀ v, v ∈ p.2.versions → v ∉ q.2.versions)
      (vs.foldl (consStep hd) []) := by
  suffices h : ∀ m : List (List String × ArgHistEntry),
      (m.map Prod.fst).Nodup →
      (∀ p ∈ m, ∀ v ∈ p.2.versions, consolidateArgumentsForVersion hd v = p.1) →
      List.Pairwise (fun p q => ∀ v, v ∈ p.2.versions → v ∉ q.2.versions) m →
      ((vs.foldl (consStep hd) m).map Prod.fst).Nodup ∧
      (∀ p ∈ vs.foldl (consStep hd) m, ∀ v ∈ p.2.versions,
        consolidateArgumentsForVersion hd v = p.1) ∧
      List.Pairwise (fun p q => ∀ v, v ∈ p.2.versions → v ∉ q.2.versions)
        (vs.foldl (consStep hd) m) by
    exact h [] (by simp) (by simp) (by simp)
  induction vs with
  | nil => exact fun m a b c => ⟨a, b, c⟩
  | cons v vs ih =>
    intro m hm1 hm2 hm3
    obtain ⟨s1, s2, s3⟩ := consStep_inv hd m v hm1 hm2 hm3
    exact ih (consStep hd m v) s1 s2 s3

lemma workerStep_inv (v : Version) (ps : List RawHook) (m : List WorkerHook) (h : RawHook)
    (hwfs : h.lines.Sorted (· ≤ ·)) (hwfn : h.lines.Nodup)
    (hN : (m.map (fun e => (e.name, e.type, e.file))).Nodup)
    (hE : ∀ e ∈ m,
      e.version = v ∧ e.lines.Sorted (· ≤ ·) ∧ e.lines.Nodup ∧
      (∀ l, l ∈ e.lines ↔ ∃ h' ∈ ps, keyMatch e h' = true ∧ l ∈ h'.lines) ∧
      (∃ h0, ps.find? (fun h' => keyMatch e h') = some h0 ∧ e.arguments = h0.arguments))
    (hC : ∀ h' ∈ ps, ∃ e ∈ m, keyMatch e h' = true) :
    ((workerStep v m h).map (fun e => (e.name, e.type, e.file))).Nodup ∧
    (∀ e ∈ workerStep v m h,
      e.version = v ∧ e.lines.Sorted (· ≤ ·) ∧ e.lines.Nodup ∧
      (∀ l, l ∈ e.lines ↔ ∃ h' ∈ ps ++ [h], keyMatch e h' = true ∧ l ∈ h'.lines) ∧
      (∃ h0, (ps ++ [h]).find? (fun h' => keyMatch e h') = some h0 ∧
        e.arguments = h0.arguments)) ∧
    (∀ h' ∈ ps ++ [h], ∃ e ∈ workerStep v m h, keyMatch e h' = true) := by
  by_cases hmem : m.any (fun e => keyMatch e h) = true
  · -- an aggregated record with this key already exists: merge the lines
    have hdec := updateFirst_decomp (fun e => keyMatch e h)
      (fun e => { e with lines := numSort (pushNew e.lines h.lines) }) m hmem
    obtain ⟨pre, x, post, he, hpre, hpx, hu⟩ := hdec
    have hkeyh : keyMatch x h = true := hpx
    have hstep : workerStep v m h =
        pre ++ { x with lines := numSort (pushNew x.lines h.lines) } :: post := by
      simp only [workerStep]
      rw [if_pos hmem, hu]
    rw [hstep]
    rw [he] at hN hE hC
    have hxm : x ∈ pre ++ x :: post := List.mem_append.mpr (Or.inr (List.mem_cons_self _ _))
    obtain ⟨hv, hsrt, hnd, hlin, hfind⟩ := hE x hxm
    have hmid := List.nodup_middle.mp
      (show ((pre.map (fun e => (e.name, e.type, e.file))) ++
          (x.name, x.type, x.file) :: (post.map (fun e => (e.name, e.type, e.file)))).Nodup by
        simpa using hN)
    rcases List.nodup_cons.mp hmid with ⟨hxnot, _⟩
    have hothers : ∀ e, (e ∈ pre ∨ e ∈ post) → ¬keyMatch e h = true := by
      intro e hor hk
      have hkeys := wkey_eq_of_keyMatch hk hkeyh
      apply hxnot
      rw [← hkeys]
      rcases hor with hp | hp
      · exact List.mem_append.mpr (Or.inl (List.mem_map_of_mem _ hp))
      · exact List.mem_append.mpr (Or.inr (List.mem_map_of_mem _ hp))
    refine ⟨?_, ?_, ?_⟩
    · simpa using hN
    · intro e hem
      rcases List.mem_append.mp hem with hold | hmidm
      · obtain ⟨hv', hsrt', hnd', hlin', hfind'⟩ := hE e (List.mem_append.mpr (Or.inl hold))
        obtain ⟨hl2, hf2⟩ := entry_extend ps h e (hothers e (Or.inl hold)) hlin' hfind'
        exact ⟨hv', hsrt', hnd', hl2, hf2⟩
      · rcases List.mem_cons.mp hmidm with rfl | hpost
        · -- the merged record
          refine ⟨hv, sorted_numSort _, ?_, ?_, ?_⟩
          · exact nodup_numSort _ (nodup_pushNew _ _ hnd)
          · intro l
            rw [show ({ x with lines := numSort (pushNew x.lines h.lines) } :
                WorkerHook).lines = numSort (pushNew x.lines h.lines) from rfl]
            rw [mem_numSort, mem_pushNew]
            constructor
            · rintro (hl | hl)
              · obtain ⟨h', hm, hkk, hl'⟩ := (hlin l).mp hl
                exact ⟨h', List.mem_append.mpr (Or.inl hm), hkk, hl'⟩
              · exact ⟨h, List.mem_append.mpr (Or.inr (List.mem_singleton_self h)), hkeyh, hl⟩
            · rintro ⟨h', hm, hkk, hl'⟩
              rcases List.mem_append.mp hm with hm | hm
              · exact Or.inl ((hlin l).mpr ⟨h', hm, hkk, hl'⟩)
              · rw [List.mem_singleton.mp hm] at hl'
                exact Or.inr hl'
          · obtain ⟨h0, hf, ha⟩ := hfind
            refine ⟨h0, ?_, ha⟩
            have hpeq : (fun h' => keyMatch
                ({ x with lines := numSort (pushNew x.lines h.lines) } : WorkerHook) h') =
                (fun h' => keyMatch x h') := rfl
            rw [hpeq, List.find?_append, hf]
            rfl
        · obtain ⟨hv', hsrt', hnd', hlin', hfind'⟩ :=
            hE e (List.mem_append.mpr (Or.inr (List.mem_cons_of_mem _ hpost)))
          obtain ⟨hl2, hf2⟩ := entry_extend ps h e (hothers e (Or.inr hpost)) hlin' hfind'
          exact ⟨hv', hsrt', hnd', hl2, hf2⟩
    · intro h' hm
      rcases List.mem_append.mp hm with hm | hm
      · obtain ⟨e, hem, hek⟩ := hC h' hm
        rcases List.mem_append.mp hem with hp | hp
        · exact ⟨e, List.mem_append.mpr (Or.inl hp), hek⟩
        · rcases List.mem_cons.mp hp with rfl | hp
          · exact ⟨{ e with lines := numSort (pushNew e.lines h.lines) },
              List.mem_append.mpr (Or.inr (List.mem_cons_self _ _)), hek⟩
          · exact ⟨e, List.mem_append.mpr (Or.inr (List.mem_cons_of_mem _ hp)), hek⟩
      · rw [List.mem_singleton.mp hm]
        exact ⟨{ x with lines := numSort (pushNew x.lines h.lines) },
          List.mem_append.mpr (Or.inr (List.mem_cons_self _ _)), hkeyh⟩
  · -- no record with this key yet: append a fresh one
    have hmem' : m.any (fun e => keyMatch e h) = false := by
      cases hp : m.any (fun e => keyMatch e h) with
      | true => exact absurd hp hmem
      | false => rfl
    have hnotkey : ∀ e ∈ m, ¬keyMatch e h = true := List.any_eq_false.mp hmem'
    have hstep : workerStep v m h =
        m ++ [⟨h.name, h.type, h.file, h.lines, h.arguments, v⟩] := by
      simp only [workerStep]
      rw [if_neg (by simp [hmem'])]
    rw [hstep]
    have hnewkey : keyMatch ⟨h.name, h.type, h.file, h.lines, h.arguments, v⟩ h = true := by
      rw [keyMatch_iff]
      exact ⟨rfl, rfl, rfl⟩
    have hnops : ∀ h' ∈ ps,
        ¬keyMatch (⟨h.name, h.type, h.file, h.lines, h.arguments, v⟩ : WorkerHook) h' = true := by
      intro h' hm hk
      obtain ⟨e, hem, hek⟩ := hC h' hm
      exact hnotkey e hem (keyMatch_of_keyMatch hek hk hnewkey)
    refine ⟨?_, ?_, ?_⟩
    · simp only [List.map_append, List.map_cons, List.map_nil]
      rw [List.nodup_append]
      refine ⟨hN, List.nodup_singleton _, ?_⟩
      intro k hk hkc
      rw [List.mem_singleton.mp hkc] at hk
      rcases List.mem_map.mp hk with ⟨e, hem, hek⟩
      apply hnotkey e hem
      rw [keyMatch_iff]
      simp only [Prod.mk.injEq] at hek
      exact hek
    · intro e hem
      rcases List.mem_append.mp hem with hold | hnew
      · obtain ⟨hv', hsrt', hnd', hlin', hfind'⟩ := hE e hold
        obtain ⟨hl2, hf2⟩ := entry_extend ps h e (hnotkey e hold) hlin' hfind'
        exact ⟨hv', hsrt', hnd', hl2, hf2⟩
      · rw [List.mem_singleton.mp hnew]
        refine ⟨rfl, hwfs, hwfn, ?_, ?_⟩
        · intro l
          constructor
          · intro hl
            exact ⟨h, List.mem_append.mpr (Or.inr (List.mem_singleton_self h)), hnewkey, hl⟩
          · rintro ⟨h', hm, hkk, hl'⟩
            rcases List.mem_append.mp hm with hm | hm
            · exact absurd hkk (hnops h' hm)
            · rw [List.mem_singleton.mp hm] at hl'
              exact hl'
        · refine ⟨h, ?_, rfl⟩
          rw [List.find?_append]
          have hfe : ps.find?
              (fun h' => keyMatch ⟨h.name, h.type, h.file, h.lines, h.arguments, v⟩ h') =
              none := by
            rw [List.find?_eq_none]
            exact hnops
          rw [hfe, Option.none_or]
          exact List.find?_cons_of_pos _ hnewkey
    · intro h' hm
      rcases List.mem_append.mp hm with hm | hm
      · obtain ⟨e, hem, hek⟩ := hC h' hm
        exact ⟨e, List.mem_append.mpr (Or.inl hem), hek⟩
      · rw [List.mem_singleton.mp hm]
        exact ⟨_, List.mem_append.mpr (Or.inr (List.mem_singleton_self _)), hnewkey⟩

lemma workerFold_inv (v : Version) (hooks : List RawHook)
    (hwf : ∀ h ∈ hooks, h.lines.Sorted (· ≤ ·) ∧ h.lines.Nodup) :
    ((processVersionFold v hooks).map (fun e => (e.name, e.type, e.file))).Nodup ∧
    (∀ e ∈ processVersionFold v hooks,
      e.version = v ∧ e.lines.Sorted (· ≤ ·) ∧ e.lines.Nodup ∧
      (∀ l, l ∈ e.lines ↔ ∃ h' ∈ hooks, keyMatch e h' = true ∧ l ∈ h'.lines) ∧
      (∃ h0, hooks.find? (fun h' => keyMatch e h') = some h0 ∧
        e.arguments = h0.arguments)) ∧
    (∀ h' ∈ hooks, ∃ e ∈ processVersionFold v hooks, keyMatch e h' = true) := by
  suffices hgen : ∀ (rest ps : List RawHook) (m : List WorkerHook),
      (∀ h ∈ rest, h.lines.Sorted (· ≤ ·) ∧ h.lines.Nodup) →
      (m.map (fun e => (e.name, e.type, e.file))).Nodup →
      (∀ e ∈ m,
        e.version = v ∧ e.lines.Sorted (· ≤ ·) ∧ e.lines.Nodup ∧
        (∀ l, l ∈ e.lines ↔ ∃ h' ∈ ps, keyMatch e h' = true ∧ l ∈ h'.lines) ∧
        (∃ h0, ps.find? (fun h' => keyMatch e h') = some h0 ∧
          e.arguments = h0.arguments)) →
      (∀ h' ∈ ps, ∃ e ∈ m, keyMatch e h' = true) →
      ((rest.foldl (workerStep v) m).map (fun e => (e.name, e.type, e.file))).Nodup ∧
      (∀ e ∈ rest.foldl (workerStep v) m,
        e.version = v ∧ e.lines.Sorted (· ≤ ·) ∧ e.lines.Nodup ∧
        (∀ l, l ∈ e.lines ↔ ∃ h' ∈ ps ++ rest, keyMatch e h' = true ∧ l ∈ h'.lines) ∧
        (∃ h0, (ps ++ rest).find? (fun h' => keyMatch e h') = some h0 ∧
          e.arguments = h0.arguments)) ∧
      (∀ h' ∈ ps ++ rest, ∃ e ∈ rest.foldl (workerStep v) m, keyMatch e h' = true) by
    have hmain := hgen hooks [] [] hwf (by simp) (by simp) (by simp)
    simpa using hmain
  intro rest
  induction rest with
  | nil =>
    intro ps m _ hN hE hC
    simpa using ⟨hN, hE, hC⟩
  | cons h rest ih =>
    intro ps m hrest hN hE hC
    obtain ⟨s1, s2, s3⟩ := workerStep_inv v ps m h (hrest h (List.mem_cons_self _ _)).1
      (hrest h (List.mem_cons_self _ _)).2 hN hE hC
    have hmain := ih (ps ++ [h]) (workerStep v m h)
      (fun x hx => hrest x (List.mem_cons_of_mem _ hx)) s1 s2 s3
    rw [List.append_assoc] at hmain
    simpa using hmain

end HooksDB

namespace HooksDB

/-! ## Claim checks -/

/-- C6: the version comparison is a total order on the valid version
identifiers: numeric tags compare lexicographically by (major, minor,
patch), the sentinel "main" compares strictly greater than every numeric
tag and equal to itself, comparison result zero characterizes equality,
and the induced non-strict order is total, antisymmetric and transitive. -/
theorem compareVersions_total_order :
    (∀ a b c d e f : Nat,
        vLt (Version.tag a b c) (Version.tag d e f) ↔
          (a < d ∨ (a = d ∧ (b < e ∨ (b = e ∧ c < f))))) ∧
    (∀ a b c : Nat, vLt (Version.tag a b c) Version.main) ∧
    compareVersions Version.main Version.main = 0 ∧
    (∀ u v : Version, compareVersions u v = 0 ↔ u = v) ∧
    (∀ u v : Version, vLe u v ∨ vLe v u) ∧
    (∀ u v : Version, vLe u v → vLe v u → u = v) ∧
    (∀ u v w : Version, vLe u v → vLe v w → vLe u w) := by
  refine ⟨?_, ?_, rfl, compareVersions_eq_zero_iff, vLe_total, vLe_antisymm, vLe_trans⟩
  · intro a b c d e f
    simp only [vLt, compareVersions]
    split_ifs <;> omega
  · intro a b c
    show (-1 : Int) < 0
    decide

/-- Witness for C6: the order components applied at concrete versions. -/
theorem compareVersions_total_order_witness :
    vLe (Version.tag 0 0 1) (Version.tag 0 1 0) ∧ vLe (Version.tag 0 1 0) Version.main ∧
    vLe (Version.tag 0 0 1) Version.main :=
  ⟨by decide, by decide,
    compareVersions_total_order.2.2.2.2.2.2 (Version.tag 0 0 1) (Version.tag 0 1 0)
      Version.main (by decide) (by decide)⟩

/-- C9: evaluating the scheduler's completion accounting at the failing
input: a single version whose worker catches an exception and posts the
bare empty-array message is never counted, so the run never resolves —
while the uncaught-error event and the success message are counted and do
resolve the run. -/
theorem scheduler_caught_error_not_counted :
    (runScheduler 1 [WorkerReport.caughtError]).completed = 0 ∧
    (runScheduler 1 [WorkerReport.caughtError]).resolved = false ∧
    (runScheduler 1 [WorkerReport.uncaughtError]).resolved = true ∧
    (runScheduler 1 [WorkerReport.success []]).resolved = true := by
  decide

/-- C2: evaluating the merge-and-report pipeline on the same two-element
set of worker results in its two arrival orders: the merged index — and
with it the artifact's hooks array — differs (the firstVersion field
records whichever result arrived first), so the pipeline is not a pure
function of the set of worker results. -/
theorem mergeAll_order_dependent :
    mergeAll [[wh1], [wh2]] ≠ mergeAll [[wh2], [wh1]] ∧
    (mergeAll [[wh1], [wh2]]).map (fun hd => hd.firstVersion) = [Version.tag 0 0 1] ∧
    (mergeAll [[wh2], [wh1]]).map (fun hd => hd.firstVersion) = [Version.tag 0 0 2] ∧
    (consolidateArgumentHistory (mergeAll [[wh1], [wh2]])).map toReportHook ≠
      (consolidateArgumentHistory (mergeAll [[wh2], [wh1]])).map toReportHook := by
  decide

/-- C4: evaluating the merge at a failing arrival order: when the v0.0.2
worker result for hook X arrives before the v0.0.1 result, the merged
hook's firstVersion is v0.0.2 although its locations contain the strictly
smaller version v0.0.1, so firstVersion is not the minimum of the location
versions. -/
theorem mergeAll_firstVersion_not_min :
    (mergeAll [[wh2], [wh1]]).map (fun hd => hd.firstVersion) = [Version.tag 0 0 2] ∧
    (mergeAll [[wh2], [wh1]]).map (fun hd => hd.locations.map (fun loc => loc.version)) =
      [[Version.tag 0 0 2, Version.tag 0 0 1]] ∧
    vLt (Version.tag 0 0 1) (Version.tag 0 0 2) := by
  decide

/-- C3: evaluating consolidation at a failing arrival order: with the
v0.0.2 worker result merged first, the consolidated entry's
firstSeenVersion is v0.0.2 although its membership set also contains the
strictly smaller version v0.0.1. -/
theorem consolidate_firstSeenVersion_not_min :
    (consolidateArgumentHistory (mergeAll [[wh2], [wh1]])).map
        (fun hd => hd.argumentHistory.map (fun p => (p.2.firstSeenVersion, p.2.versions))) =
      [[(Version.tag 0 0 2, [Version.tag 0 0 2, Version.tag 0 0 1])]] ∧
    vLt (Version.tag 0 0 1) (Version.tag 0 0 2) := by
  decide

/-- Counterexample to C8 as stated: a plugin outlet (a type that is not
BehaviorTransformer, but also not consolidated) observed at one version in
two files with different argument tokens keeps two argumentHistory entries
whose versions sets both contain that version. -/
theorem argumentHistory_disjoint_counterexample :
    ¬ (∀ hd ∈ consolidateArgumentHistory (mergeAll [[po1, po2]]),
        hd.type ≠ "behavior_transformer" → historyDisjoint hd) := by
  decide

/-- C5: within one worker and version, folding any list of raw hook
occurrences (whose line lists are, as the extractor produces them, strictly
ascending) yields at most one record per (name, type, file) key; each
record's lines list is sorted, duplicate-free and contains exactly the
lines of the occurrences with its key; its arguments are those of the first
occurrence with its key; every occurrence key is represented; and folding
the same occurrence twice yields exactly the same record list as folding it
once. -/
theorem processVersionFold_dedup :
    (∀ (v : Version) (hooks : List RawHook),
        (∀ h ∈ hooks, h.lines.Sorted (· ≤ ·) ∧ h.lines.Nodup) →
        ((processVersionFold v hooks).map (fun e => (e.name, e.type, e.file))).Nodup ∧
        (∀ e ∈ processVersionFold v hooks,
          e.version = v ∧ e.lines.Sorted (· ≤ ·) ∧ e.lines.Nodup ∧
          (∀ l, l ∈ e.lines ↔ ∃ h' ∈ hooks, keyMatch e h' = true ∧ l ∈ h'.lines) ∧
          (∃ h0, hooks.find? (fun h' => keyMatch e h') = some h0 ∧
            e.arguments = h0.arguments)) ∧
        (∀ h' ∈ hooks, ∃ e ∈ processVersionFold v hooks, keyMatch e h' = true)) ∧
    (∀ (v : Version) (h : RawHook), h.lines.Sorted (· ≤ ·) → h.lines.Nodup →
        processVersionFold v [h, h] = processVersionFold v [h]) := by
  constructor
  · exact fun v hooks hwf => workerFold_inv v hooks hwf
  · intro v h hs hn
    have h1 : pushNew h.lines h.lines = h.lines := pushNew_of_subset _ _ (fun x hx => hx)
    have h2 : numSort h.lines = h.lines := List.Sorted.insertionSort_eq hs
    simp [processVersionFold, workerStep, keyMatch, updateFirst, h1, h2]

/-- Witness for C5: folding the same occurrence twice equals folding it
once. -/
theorem processVersionFold_dedup_witness :
    (exRawHook.lines.Sorted (· ≤ ·) ∧ exRawHook.lines.Nodup) ∧
    processVersionFold (Version.tag 0 0 1) [exRawHook, exRawHook] =
      processVersionFold (Version.tag 0 0 1) [exRawHook] :=
  ⟨⟨by decide, by decide⟩,
    processVersionFold_dedup.2 (Version.tag 0 0 1) exRawHook (by decide) (by decide)⟩

/-- C8 amended: after consolidation, for every hook of an argument-tracking
type (value transformer or app event trigger — the types the consolidation
pass actually rewrites), the versions sets of its argumentHistory entries
are pairwise disjoint.  (For other non-BehaviorTransformer types, such as
plugin outlets, the raw history is kept and disjointness can fail.) -/
theorem consolidated_history_disjoint :
    ∀ (db : List HookData) (hd : HookData), hd ∈ consolidateArgumentHistory db →
      argTracking hd.type = true → historyDisjoint hd := by
  intro db hd hmem htrack
  obtain ⟨hd0, _, rfl⟩ := List.mem_map.mp hmem
  by_cases h : argTracking hd0.type = true
  · show List.Pairwise _ (consolidateHook hd0).argumentHistory
    have hck : consolidateHook hd0 =
        { hd0 with argumentHistory := consolidatedHistoryOf hd0 } := by
      simp [consolidateHook, h]
    rw [hck]
    exact (consFold_inv hd0 (allVersionsOf hd0)).2.2
  · have hck : consolidateHook hd0 = hd0 := by simp [consolidateHook, h]
    rw [hck] at htrack
    exact absurd htrack h

/-- Witness for C8's amended theorem: the consolidated value transformer
observed at two versions with one signature has a disjoint history. -/
theorem consolidated_history_disjoint_witness :
    consolidateHook exVtHook ∈ consolidateArgumentHistory [exVtHook] ∧
    argTracking (consolidateHook exVtHook).type = true ∧
    historyDisjoint (consolidateHook exVtHook) :=
  ⟨by decide, by decide,
    consolidated_history_disjoint [exVtHook] (consolidateHook exVtHook)
      (by decide) (by decide)⟩

/-- C1: for every hook and every version at which it has at least one
Location with a non-empty argument list, the consolidated signature has one
name per position up to the longest argument sequence, and the name at each
position satisfies the spec's priority: a plain non-reserved identifier
among the tokens at that position, else a method-call or trailing
member-access extraction from one of them, else the fallback "value".  In
particular the two call sites with raw args [topic, user] and [topic]
consolidate to [topic, user]. -/
theorem consolidateArguments_positional :
    (∀ (hd : HookData) (v : Version), argumentArraysFor hd v ≠ [] →
        (consolidateArgumentsForVersion hd v).length = maxArgLength (argumentArraysFor hd v) ∧
        ∀ i, i < maxArgLength (argumentArraysFor hd v) →
          specChosenName (tokensAtPosition (argumentArraysFor hd v) i)
            ((consolidateArgumentsForVersion hd v).getD i "")) ∧
    consolidateArgumentsForVersion exConsolidationHook (Version.tag 1 0 0) = ["topic", "user"] := by
  constructor
  · intro hd v hne
    have hempty : (argumentArraysFor hd v).isEmpty = false := by
      cases harr : argumentArraysFor hd v
      · exact (hne harr).elim
      · rfl
    constructor
    · simp [consolidateArgumentsForVersion, hempty]
    · intro i hi
      have hmap : consolidateArgumentsForVersion hd v =
          (List.range (maxArgLength (argumentArraysFor hd v))).map
            (fun j => chooseBestArgumentName (tokensAtPosition (argumentArraysFor hd v) j)) := by
        simp [consolidateArgumentsForVersion, hempty]
      have hget : (consolidateArgumentsForVersion hd v).getD i "" =
          chooseBestArgumentName (tokensAtPosition (argumentArraysFor hd v) i) := by
        rw [hmap, List.getD_eq_getElem?_getD, List.getElem?_map, List.getElem?_range hi]
        rfl
      rw [hget]
      exact chooseBest_satisfies_spec _
  · decide

/-- Witness for C1: the positional property instantiated at the
[topic, user] / [topic] example. -/
theorem consolidateArguments_positional_witness :
    argumentArraysFor exConsolidationHook (Version.tag 1 0 0) ≠ [] ∧
    ((consolidateArgumentsForVersion exConsolidationHook (Version.tag 1 0 0)).length =
        maxArgLength (argumentArraysFor exConsolidationHook (Version.tag 1 0 0)) ∧
      ∀ i, i < maxArgLength (argumentArraysFor exConsolidationHook (Version.tag 1 0 0)) →
        specChosenName
          (tokensAtPosition (argumentArraysFor exConsolidationHook (Version.tag 1 0 0)) i)
          ((consolidateArgumentsForVersion exConsolidationHook (Version.tag 1 0 0)).getD i "")) :=
  ⟨by decide, consolidateArguments_positional.1 exConsolidationHook (Version.tag 1 0 0) (by decide)⟩

/-- Counterexample to C7 as stated: the handlebars hash form is normalized
keeping its keys in source order, so two map literals with the same key set
in different source orders produce different tokens. -/
theorem hashNormalization_not_sorted :
    normalizeArgument "\x7b\x7bhash b=@b a=@a\x7d\x7d" = "\x7b\x7bhash b a\x7d\x7d" ∧
    normalizeArgument "\x7b\x7bhash a=@a b=@b\x7d\x7d" = "\x7b\x7bhash a b\x7d\x7d" ∧
    normalizeArgument "\x7b\x7bhash b=@b a=@a\x7d\x7d" ≠
      normalizeArgument "\x7b\x7bhash a=@a b=@b\x7d\x7d" := by
  decide

/-- C7 amended: for map literals of the object-literal form (handled by
normalizeAppEventArg) the token lists the extracted keys sorted, so two
such literals whose extracted key lists are permutations of each other
normalize to the same token; the handlebars hash form keeps source order
and is not order-canonical. -/
theorem normalizeAppEventArg_sorted_keys :
    (∀ s t : String,
        (trimChars s.toList).head? = some '{' →
        (trimChars s.toList).getLast? = some '}' →
        (trimChars t.toList).head? = some '{' →
        (trimChars t.toList).getLast? = some '}' →
        List.Perm (extractPropNames ((trimChars s.toList).drop 1).dropLast)
          (extractPropNames ((trimChars t.toList).drop 1).dropLast) →
        normalizeAppEventArg s = normalizeAppEventArg t) ∧
    normalizeAppEventArg "\x7bb, a\x7d" = "\x7ba,b\x7d" ∧
    normalizeAppEventArg "\x7bb, a\x7d" = normalizeAppEventArg "\x7ba, b\x7d" := by
  refine ⟨?_, by decide, by decide⟩
  intro s t hs1 hs2 ht1 ht2 hperm
  haveI : IsTotal String jsStrLe := ⟨fun a b => charListLe_total a.toList b.toList⟩
  haveI : IsTrans String jsStrLe := ⟨fun a b c => charListLe_trans a.toList b.toList c.toList⟩
  haveI : IsAntisymm String jsStrLe :=
    ⟨fun a b h1 h2 => String.toList_inj.mp (charListLe_antisymm a.toList b.toList h1 h2)⟩
  have hsort : List.insertionSort jsStrLe
        (extractPropNames ((trimChars s.toList).drop 1).dropLast) =
      List.insertionSort jsStrLe
        (extractPropNames ((trimChars t.toList).drop 1).dropLast) := by
    refine List.eq_of_perm_of_sorted ?_ (List.sorted_insertionSort _ _)
      (List.sorted_insertionSort _ _)
    exact ((List.perm_insertionSort _ _).trans hperm).trans (List.perm_insertionSort _ _).symm
  have hlen := hperm.length_eq
  simp only [normalizeAppEventArg]
  rw [hs1, hs2, ht1, ht2]
  simp only [BEq.refl, Bool.and_self, if_true]
  rw [hlen, hsort]

/-- Witness for C7's amended theorem: the two object literals with keys
in the orders (b, a) and (a, b) normalize to the same token. -/
theorem normalizeAppEventArg_sorted_keys_witness :
    (trimChars ("\x7bb, a\x7d" : String).toList).head? = some '{' ∧
    (trimChars ("\x7bb, a\x7d" : String).toList).getLast? = some '}' ∧
    (trimChars ("\x7ba, b\x7d" : String).toList).head? = some '{' ∧
    (trimChars ("\x7ba, b\x7d" : String).toList).getLast? = some '}' ∧
    List.Perm (extractPropNames ((trimChars ("\x7bb, a\x7d" : String).toList).drop 1).dropLast)
      (extractPropNames ((trimChars ("\x7ba, b\x7d" : String).toList).drop 1).dropLast) ∧
    normalizeAppEventArg "\x7bb, a\x7d" = normalizeAppEventArg "\x7ba, b\x7d" :=
  ⟨by decide, by decide, by decide, by decide, by decide,
    normalizeAppEventArg_sorted_keys.1 "\x7bb, a\x7d" "\x7ba, b\x7d"
      (by decide) (by decide) (by decide) (by decide) (by decide)⟩

/-- C10: the artifact's hooksWithArgumentChanges count and
summary.totalArgumentChanges sum range only over hooks having at least one
Location at the latest version: the count filters on presence at the
latest version before testing hasArgumentChanges, and appending a hook
absent from the latest version (the latest version being unchanged)
changes neither statistic. -/
theorem report_stats_latest_only :
    (∀ (hooks : List ReportHook) (latest : Version),
        hooksWithArgumentChangesCount hooks latest =
          (hooks.filter (fun h =>
            (h.locations.any (fun loc => loc.version == latest)) && h.hasArgumentChanges)).length) ∧
    (∀ (hooks : List ReportHook) (h : ReportHook) (latest : Version),
        (h.locations.any (fun loc => loc.version == latest)) = false →
        hooksWithArgumentChangesCount (hooks ++ [h]) latest =
            hooksWithArgumentChangesCount hooks latest ∧
          totalArgumentChangesSum (hooks ++ [h]) latest = totalArgumentChangesSum hooks latest) ∧
    (∀ (hooks : List ReportHook) (h : ReportHook) (latest : Version),
        latestVersionOf hooks = some latest →
        latestVersionOf (hooks ++ [h]) = some latest →
        (h.locations.any (fun loc => loc.version == latest)) = false →
        reportStats (hooks ++ [h]) = reportStats hooks) := by
  refine ⟨?_, ?_, ?_⟩
  · intro hooks latest
    unfold hooksWithArgumentChangesCount hooksInLatestVersion
    rw [List.filter_filter]
    simp [Bool.and_comm]
  · intro hooks h latest hp
    constructor
    · unfold hooksWithArgumentChangesCount
      rw [hooksInLatest_append_not hooks h latest hp]
    · unfold totalArgumentChangesSum
      rw [hooksInLatest_append_not hooks h latest hp]
  · intro hooks h latest h1 h2 hp
    simp only [reportStats, h1, h2]
    unfold hooksWithArgumentChangesCount totalArgumentChangesSum
    rw [hooksInLatest_append_not hooks h latest hp]

/-- Witness for C10: appending a retired hook that has argument changes
leaves both latest-version statistics unchanged. -/
theorem report_stats_latest_only_witness :
    latestVersionOf [rpActive] = some (Version.tag 0 0 2) ∧
    latestVersionOf [rpActive, rpRetired] = some (Version.tag 0 0 2) ∧
    (rpRetired.locations.any (fun loc => loc.version == Version.tag 0 0 2)) = false ∧
    reportStats [rpActive, rpRetired] = reportStats [rpActive] :=
  ⟨by decide, by decide, by decide,
    report_stats_latest_only.2.2 [rpActive] rpRetired (Version.tag 0 0 2)
      (by decide) (by decide) (by decide)⟩

end HooksDB
